import Mathlib

/-!
Shallow embedding of `crates/server/src/net.rs` (hyperion): the outbound
packet queue (`Packets`), its per-shard write-region lists with contiguous
coalescing, the send-in-flight counter, the shard buffer (`IoBuf`), and the
unsupported-platform stub of the `ServerDef` capability.

Machine integers are modelled as `Nat` with explicit wraparound where the
source can wrap: `usize` arithmetic (the `AtomicUsize::fetch_sub`) is taken
modulo `2 ^ 64`, `u32` lengths modulo `2 ^ 32`.  `debug_assert!` is modelled
as a fatal error (`Except.error`), the loud failure of a debug build.
External components (the ring buffer, the encoder) are consumed through
their contracts: the region an encode or ring append produces is passed in
as an explicit argument (an oracle), as the spec's external-interface
section describes.
-/

namespace Net

/-- Modulus of `usize` (64-bit platform). -/
def USIZE : Nat := 2 ^ 64

/-- Modulus of `u32`. -/
def U32MOD : Nat := 2 ^ 32

/-- Modelled from the spec: `PacketWriteInfo` lives in the encoder module
(`crate::net::encoder`), whose file is not part of the sources; the spec
gives `{start_ptr: raw pointer into a ring buffer, len: unsigned 32-bit
byte count}`.  The raw pointer is modelled as a natural-number address. -/
structure PacketWriteInfo where
  start_ptr : Nat
  len : Nat
deriving Repr, DecidableEq

/-- Modelled from the spec: `valence_protocol::CompressionThreshold` is an
external `i32` wrapper; its `DEFAULT` value disables compression (the
source annotates the assignment with `// none`), modelled as `-1`. -/
def CompressionThresholdDEFAULT : Int := -1

/-- Modelled from the spec: of the external encoder component only the
compression-threshold state is relevant here (`set_compression` /
`compression_threshold` accessors of the encoder contract). -/
structure PacketEncoder where
  threshold : Int
deriving Repr, DecidableEq

/-- Modelled from the spec: the external ring buffer, consumed via an
append-returns-pointer contract; only its fixed capacity is carried, the
pointer each append returns is supplied as an oracle argument. -/
structure Ring where
  capacity : Nat
deriving Repr, DecidableEq

/-- 128 MiB per-shard buffer size (`S2C_BUFFER_SIZE`). -/
def S2C_BUFFER_SIZE : Nat := 1024 * 1024 * 128

/-- `IoBuf`: one shard's encoder, ring buffer and shard index. -/
structure IoBuf where
  enc : PacketEncoder
  buf : Ring
  index : Nat
deriving Repr, DecidableEq

/-- `IoBuf::new(threshold, index)`. -/
def IoBuf.new (threshold : Int) (index : Nat) : IoBuf :=
  { enc := { threshold := threshold }
    buf := { capacity := S2C_BUFFER_SIZE }
    index := index }

/-- `Packets`: per-shard queues of pending write regions (`RayonLocal` of
`VecDeque<PacketWriteInfo>`, modelled as a list of lists indexed by shard)
plus the shared in-flight counter (`AtomicUsize`, value below `2 ^ 64`). -/
structure Packets where
  to_write : List (List PacketWriteInfo)
  number_sending : Nat
deriving Repr, DecidableEq

/-- A fresh `Packets` (`Packets::default()`) with `n` shards: every queue
empty, counter zero. -/
def freshPackets (n : Nat) : Packets :=
  { to_write := List.replicate n [], number_sending := 0 }

/-- Shard-for-shard queue merge, the loop body of `Packets::extend`:
`self.to_write.iter_mut().zip(other.to_write.iter())` stops at the shorter
side, each of `self`'s zipped queues is extended in place by `other`'s. -/
def extendQueues :
    List (List PacketWriteInfo) → List (List PacketWriteInfo) →
      List (List PacketWriteInfo)
  | qs, [] => qs
  | [], _ => []
  | q :: qs, o :: os => (q ++ o) :: extendQueues qs os

/-- `Packets::extend(&mut self, other: &Self)`. -/
def Packets.extend (p other : Packets) : Packets :=
  { p with to_write := extendQueues p.to_write other.to_write }

/-- `Packets::can_send(&self)`: false while a send is in flight, else true
iff some shard queue is non-empty. -/
def Packets.can_send (p : Packets) : Bool :=
  if p.number_sending ≠ 0 then false
  else p.to_write.any fun x => !x.isEmpty

/-- `Packets::set_successfully_sent(&self, d_count)`: `debug_assert!` that
the counter is positive (modelled as a fatal error when it is not), then
`fetch_sub(d_count)`, which wraps modulo `2 ^ 64`. -/
def Packets.set_successfully_sent (p : Packets) (d_count : Nat) :
    Except String Packets :=
  if p.number_sending > 0 then
    .ok { p with
          number_sending :=
            (p.number_sending + (USIZE - d_count % USIZE)) % USIZE }
  else
    .error "somehow number sending is 0 even though we just marked a successful send"

/-- `Packets::prepare_for_send(&mut self)`: `debug_assert!` that the counter
is zero (fatal error otherwise), then store the total pending entry count
into the counter and return it. -/
def Packets.prepare_for_send (p : Packets) : Except String (Nat × Packets) :=
  if p.number_sending = 0 then
    let count := (p.to_write.map List.length).sum
    .ok (count, { p with number_sending := count })
  else
    .error "number sending is not 0 even though we are preparing for send"

/-- `Packets::clear(&mut self)`: clear every shard queue. -/
def Packets.clear (p : Packets) : Packets :=
  { p with to_write := p.to_write.map fun _ => [] }

/-- The queue-level body of `Packets::push`: if the last entry's region ends
exactly where the new one begins, extend its length (`u32` addition, wraps
modulo `2 ^ 32`); otherwise push the new entry at the back. -/
def pushQueue (q : List PacketWriteInfo) (writer : PacketWriteInfo) :
    List PacketWriteInfo :=
  match q.getLast? with
  | some last =>
      if last.start_ptr + last.len = writer.start_ptr then
        q.dropLast ++
          [{ start_ptr := last.start_ptr
             len := (last.len + writer.len) % U32MOD }]
      else q ++ [writer]
  | none => q ++ [writer]

/-- `Packets::push(&self, writer, buf)`: apply `pushQueue` to the queue of
the shard `buf.index()` selects. -/
def Packets.push (p : Packets) (writer : PacketWriteInfo) (buf : IoBuf) :
    Packets :=
  { p with
    to_write :=
      p.to_write.set buf.index
        (pushQueue (p.to_write.getD buf.index []) writer) }

/-- `Packets::append_pre_compression_packet(&self, pkt, buf)`: save the
buffer's compression threshold, force no compression, run the external
`append_packet_without_compression` (its outcome is the oracle argument
`encodeResult`), and on success push the region and restore the saved
threshold.  The `?` operator returns on an encode error before the restore
line runs, so the error exit leaves the threshold forced to `DEFAULT`.
The pair `(Packets, IoBuf)` returned next to the `Except` is the state the
caller's borrowed values hold after the call. -/
def Packets.append_pre_compression_packet (p : Packets) (buf : IoBuf)
    (encodeResult : Except String PacketWriteInfo) :
    Packets × IoBuf × Except String Unit :=
  let compression := buf.enc.threshold
  let buf1 : IoBuf :=
    { buf with enc := { buf.enc with threshold := CompressionThresholdDEFAULT } }
  match encodeResult with
  | .error e => (p, buf1, .error e)
  | .ok result =>
      let p1 := p.push result buf1
      let buf2 : IoBuf := { buf1 with enc := { buf1.enc with threshold := compression } }
      (p1, buf2, .ok ())

/-- `Packets::append(&self, pkt, compose)`: the caller's shard buffer is
resolved through `Compose`; the external `PacketEncoder::append_packet`
outcome is the oracle argument.  On error the `?` operator propagates it
before `push` runs; on success the returned region is pushed. -/
def Packets.append (p : Packets) (buf : IoBuf)
    (encodeResult : Except String PacketWriteInfo) :
    Packets × Except String Unit :=
  match encodeResult with
  | .error e => (p, .error e)
  | .ok result => (p.push result buf, .ok ())

/-- `Packets::append_raw(&self, data, buf)`: the ring buffer's append
returns a start pointer (`ringPtr`, an oracle argument per the external
ring contract); the pushed region's length is `data.len() as u32`. -/
def Packets.append_raw (p : Packets) (data : List Nat) (ringPtr : Nat)
    (buf : IoBuf) : Packets :=
  p.push { start_ptr := ringPtr, len := data.length % U32MOD } buf

/-- A sequence of `append_raw` calls on one buffer: each region is a pair
of the ring-returned start pointer and the raw data. -/
def append_raw_seq (p : Packets) (buf : IoBuf)
    (regions : List (Nat × List Nat)) : Packets :=
  regions.foldl (fun acc r => acc.append_raw r.2 r.1 buf) p

/-- The same sequence at queue level: fold `pushQueue` over the regions. -/
def pushRawSeq (q : List PacketWriteInfo) (rs : List (Nat × List Nat)) :
    List PacketWriteInfo :=
  rs.foldl
    (fun acc r => pushQueue acc { start_ptr := r.1, len := r.2.length % U32MOD }) q

/-- Each region begins at the given address and the following region begins
exactly where the previous one ends (ring writes laid out contiguously). -/
def contiguousFrom : Nat → List (Nat × List Nat) → Bool
  | _, [] => true
  | a, (ptr, data) :: rest => ptr == a && contiguousFrom (ptr + data.length) rest

/-- Total byte count of a region sequence. -/
def sumLens (regions : List (Nat × List Nat)) : Nat :=
  (regions.map fun r => r.2.length).sum

/-- A run of `set_successfully_sent` completion notifications. -/
def drainSent (p : Packets) (ds : List Nat) : Except String Packets :=
  ds.foldlM Packets.set_successfully_sent p

/-- `Fd` on non-Linux platforms: a `usize`. -/
structure Fd where
  raw : Nat
deriving Repr, DecidableEq

/-- `ServerEvent`: the inbound event vocabulary. -/
inductive ServerEvent where
  | AddPlayer (fd : Fd)
  | RemovePlayer (fd : Fd)
  | RecvData (fd : Fd) (data : List Nat)
  | SentData (fd : Fd)

/-- `libc::iovec`: a registered memory region (base address, length). -/
structure Iovec where
  iov_base : Nat
  iov_len : Nat

/-- `RefreshItems`: one connection's per-shard queues and identity. -/
structure RefreshItems where
  write : List (List PacketWriteInfo)
  fd : Fd

/-- Observable outcome of a call that may panic: `unimplemented!` diverges,
which the embedding records as `panics` — such a call never constructs a
`returns` value. -/
inductive PanicOr (α : Type) where
  | panics (msg : String)
  | returns (val : α)

/-- The unsupported-platform stub of `ServerDef`. -/
structure NotImplemented where
deriving Repr, DecidableEq

/-- The message every stub operation panics with. -/
def notImplementedMsg : String := "not implemented; use Linux"

/-- `<NotImplemented as ServerDef>::new`. -/
def NotImplemented.new (_address : String) : PanicOr NotImplemented :=
  .panics notImplementedMsg

/-- `<NotImplemented as ServerDef>::drain`. -/
def NotImplemented.drain (_s : NotImplemented) (_f : ServerEvent → Unit) :
    PanicOr Unit :=
  .panics notImplementedMsg

/-- `<NotImplemented as ServerDef>::allocate_buffers`. -/
def NotImplemented.allocate_buffers (_s : NotImplemented)
    (_buffers : List Iovec) : PanicOr Unit :=
  .panics notImplementedMsg

/-- `<NotImplemented as ServerDef>::write_all`; `Global` is external, so the
global argument's type is abstract. -/
def NotImplemented.write_all {G : Type} (_s : NotImplemented) (_global : G)
    (_writers : List RefreshItems) : PanicOr Unit :=
  .panics notImplementedMsg

/-- `<NotImplemented as ServerDef>::submit_events`. -/
def NotImplemented.submit_events (_s : NotImplemented) : PanicOr Unit :=
  .panics notImplementedMsg

/-- Reading back the one updated index of a queue list. -/
theorem list_getD_set (l : List (List PacketWriteInfo)) (i : Nat)
    (a : List PacketWriteInfo) (h : i < l.length) :
    (l.set i a).getD i [] = a := by
  induction l generalizing i with
  | nil => simp at h
  | cons x xs ih =>
    cases i with
    | zero => rfl
    | succ j => exact ih j (by simpa using h)

/-- Every entry of a replicated-empty queue list reads back empty. -/
theorem replicate_getD_nil (n i : Nat) :
    (List.replicate n ([] : List PacketWriteInfo)).getD i [] = [] := by
  induction n generalizing i with
  | zero => cases i <;> rfl
  | succ m ih =>
    cases i with
    | zero => rfl
    | succ j => exact ih j

/-- Coalescing case of `pushQueue`: the queue has a last entry and the new
region starts exactly where it ends. -/
theorem pushQueue_coalesce (q : List PacketWriteInfo) (w last : PacketWriteInfo)
    (hlast : q.getLast? = some last)
    (hcont : last.start_ptr + last.len = w.start_ptr) :
    pushQueue q w = q.dropLast ++
      [{ start_ptr := last.start_ptr, len := (last.len + w.len) % U32MOD }] := by
  unfold pushQueue
  rw [hlast]
  show (if last.start_ptr + last.len = w.start_ptr then _ else _) = _
  rw [if_pos hcont]

/-- Non-coalescing case of `pushQueue`: the queue has a last entry but the
new region is not contiguous with it. -/
theorem pushQueue_push_back (q : List PacketWriteInfo) (w last : PacketWriteInfo)
    (hlast : q.getLast? = some last)
    (hcont : last.start_ptr + last.len ≠ w.start_ptr) :
    pushQueue q w = q ++ [w] := by
  unfold pushQueue
  rw [hlast]
  show (if last.start_ptr + last.len = w.start_ptr then _ else _) = _
  rw [if_neg hcont]

/-- Empty-queue case of `pushQueue`. -/
theorem pushQueue_nil (q : List PacketWriteInfo) (w : PacketWriteInfo)
    (hlast : q.getLast? = none) : pushQueue q w = q ++ [w] := by
  unfold pushQueue
  rw [hlast]

/-- A run of `append_raw` calls read back at the target shard is the
queue-level fold of `pushQueue`. -/
theorem append_raw_seq_getD (buf : IoBuf) (rs : List (Nat × List Nat)) :
    ∀ p : Packets, buf.index < p.to_write.length →
      (append_raw_seq p buf rs).to_write.getD buf.index []
        = pushRawSeq (p.to_write.getD buf.index []) rs := by
  induction rs with
  | nil => intro p _; rfl
  | cons r rs ih =>
    intro p h
    have h2 : buf.index < ((p.append_raw r.2 r.1 buf).to_write).length := by
      show buf.index < (p.to_write.set buf.index _).length
      rw [List.length_set]
      exact h
    have h3 := ih (p.append_raw r.2 r.1 buf) h2
    have h4 : (p.append_raw r.2 r.1 buf).to_write.getD buf.index []
        = pushQueue (p.to_write.getD buf.index [])
            { start_ptr := r.1, len := r.2.length % U32MOD } :=
      list_getD_set _ _ _ h
    calc (append_raw_seq p buf (r :: rs)).to_write.getD buf.index []
        = (append_raw_seq (p.append_raw r.2 r.1 buf) buf rs).to_write.getD
            buf.index [] := rfl
      _ = pushRawSeq ((p.append_raw r.2 r.1 buf).to_write.getD buf.index [])
            rs := h3
      _ = pushRawSeq (pushQueue (p.to_write.getD buf.index [])
            { start_ptr := r.1, len := r.2.length % U32MOD }) rs := by rw [h4]
      _ = pushRawSeq (p.to_write.getD buf.index []) (r :: rs) := rfl

/-- Folding contiguous raw regions over a singleton queue extends that one
entry by the regions' total length. -/
theorem pushRawSeq_singleton (rs : List (Nat × List Nat)) :
    ∀ a s : Nat, contiguousFrom (a + s) rs = true → s + sumLens rs < U32MOD →
      pushRawSeq [{ start_ptr := a, len := s }] rs
        = [{ start_ptr := a, len := s + sumLens rs }] := by
  induction rs with
  | nil =>
    intro a s _ _
    show [PacketWriteInfo.mk a s] = [PacketWriteInfo.mk a (s + sumLens [])]
    simp [sumLens]
  | cons r rs ih =>
    intro a s hc hb
    obtain ⟨ptr, data⟩ := r
    have hsum : sumLens ((ptr, data) :: rs) = data.length + sumLens rs := by
      simp [sumLens]
    rw [hsum] at hb
    simp only [contiguousFrom, Bool.and_eq_true, beq_iff_eq] at hc
    obtain ⟨hc1, hc2⟩ := hc
    have hdl : data.length % U32MOD = data.length :=
      Nat.mod_eq_of_lt (by omega)
    have hstep : pushQueue [{ start_ptr := a, len := s }]
        { start_ptr := ptr, len := data.length % U32MOD }
        = [{ start_ptr := a, len := s + data.length }] := by
      have := pushQueue_coalesce [{ start_ptr := a, len := s }]
        { start_ptr := ptr, len := data.length % U32MOD }
        { start_ptr := a, len := s } rfl (by simpa using hc1.symm)
      rw [this]
      simp only [List.dropLast_single, List.nil_append, List.cons.injEq, and_true]
      rw [hdl]
      exact congrArg (fun z => PacketWriteInfo.mk a z) (Nat.mod_eq_of_lt (by omega))
    calc pushRawSeq [{ start_ptr := a, len := s }] ((ptr, data) :: rs)
        = pushRawSeq (pushQueue [{ start_ptr := a, len := s }]
            { start_ptr := ptr, len := data.length % U32MOD }) rs := rfl
      _ = pushRawSeq [{ start_ptr := a, len := s + data.length }] rs := by
            rw [hstep]
      _ = [{ start_ptr := a, len := s + data.length + sumLens rs }] := by
            refine ih a (s + data.length) ?_ (by omega)
            have : ptr + data.length = a + (s + data.length) := by omega
            rw [← this]
            exact hc2
      _ = [{ start_ptr := a, len := s + sumLens ((ptr, data) :: rs) }] := by
            rw [hsum]
            exact congrArg (fun z => [PacketWriteInfo.mk a z]) (by omega)

/-- Wrapping `usize` subtraction agrees with exact subtraction when the
subtrahend does not exceed the (in-range) counter. -/
theorem wrapSub_eq_sub (a n : Nat) (ha : a < USIZE) (hn : n ≤ a) :
    (a + (USIZE - n % USIZE)) % USIZE = a - n := by
  unfold USIZE at ha ⊢
  omega

/-- C1: the claim states that `append_pre_compression_packet` restores the
buffer's compression threshold on every exit path, the encode-error path
included.  The code violates this: the `?` on the encode step returns
before the restore line, so a buffer whose threshold was `256` is left at
the forced no-compression value after a failing encode. -/
theorem c1_threshold_not_restored_on_error :
    (Packets.append_pre_compression_packet (freshPackets 1) (IoBuf.new 256 0)
        (.error "oversized packet")).2.1.enc.threshold
      = CompressionThresholdDEFAULT
    ∧ CompressionThresholdDEFAULT ≠ 256 := by
  exact ⟨rfl, by decide⟩

/-- C2 counterexample: with `number_sending = 1`, the call
`set_successfully_sent 2` — where the subtracted amount exceeds the counter
— is not treated as a fatal invariant violation (the `debug_assert!` only
checks that the counter is positive): it succeeds and the `fetch_sub`
wraps the counter to `2 ^ 64 - 1`. -/
theorem c2_underflow_not_detected :
    Packets.set_successfully_sent { to_write := [[]], number_sending := 1 } 2
      = .ok { to_write := [[]], number_sending := 18446744073709551615 } := by
  rfl

/-- C2 (amended): under the checked precondition `number_sending > 0`, when
`n` does not exceed the counter the call atomically decreases the counter
by exactly `n`; a call made with the counter already at zero is a fatal
(debug-asserted) invariant violation.  A call with `0 < counter < n` is
not detected and wraps (see the counterexample). -/
theorem c2_set_successfully_sent_amended (p : Packets) (n : Nat)
    (hp : p.number_sending < USIZE) :
    (0 < p.number_sending → n ≤ p.number_sending →
      Packets.set_successfully_sent p n
        = .ok { p with number_sending := p.number_sending - n })
    ∧ (p.number_sending = 0 →
      Packets.set_successfully_sent p n
        = .error "somehow number sending is 0 even though we just marked a successful send") := by
  constructor
  · intro h hn
    unfold Packets.set_successfully_sent
    rw [if_pos h, wrapSub_eq_sub p.number_sending n hp hn]
  · intro h
    unfold Packets.set_successfully_sent
    rw [if_neg (by omega)]

/-- C2 witness: a concrete in-range call, counter 5 decreased by 2. -/
theorem c2_amended_witness :
    Packets.set_successfully_sent { to_write := [[]], number_sending := 5 } 2
      = .ok { to_write := [[]], number_sending := 3 } :=
  (c2_set_successfully_sent_amended { to_write := [[]], number_sending := 5 } 2
      (by decide)).1 (by decide) (by decide)

/-- C3: the push primitive obeys the coalescing rule — with a last entry
whose region ends exactly where the new region begins it extends that
entry's length and adds no new entry, otherwise it appends the region as a
distinct entry — and consequently a sequence of `append_raw` calls on a
fresh `Packets`/`IoBuf` pair whose regions are each immediately contiguous
with the previous one leaves the shard's queue with exactly one entry
whose length is the sum of all appended lengths (lengths within `u32`
range). -/
theorem c3_coalescing :
    (∀ (q : List PacketWriteInfo) (w last : PacketWriteInfo),
        q.getLast? = some last →
        (last.start_ptr + last.len = w.start_ptr →
          pushQueue q w = q.dropLast ++
            [{ start_ptr := last.start_ptr
               len := (last.len + w.len) % U32MOD }]
          ∧ (pushQueue q w).length = q.length)
        ∧ (last.start_ptr + last.len ≠ w.start_ptr →
            pushQueue q w = q ++ [w]))
      ∧ (∀ (q : List PacketWriteInfo) (w : PacketWriteInfo),
          q.getLast? = none → pushQueue q w = q ++ [w])
      ∧ (∀ (n i : Nat) (thr : Int) (first : Nat × List Nat)
            (rest : List (Nat × List Nat)),
          i < n →
          contiguousFrom first.1 (first :: rest) = true →
          sumLens (first :: rest) < U32MOD →
          (append_raw_seq (freshPackets n) (IoBuf.new thr i)
              (first :: rest)).to_write.getD i []
            = [{ start_ptr := first.1, len := sumLens (first :: rest) }]) := by
  refine ⟨?_, pushQueue_nil, ?_⟩
  · intro q w last hlast
    refine ⟨fun hcont => ⟨pushQueue_coalesce q w last hlast hcont, ?_⟩,
      pushQueue_push_back q w last hlast⟩
    rw [pushQueue_coalesce q w last hlast hcont]
    have hq : q ≠ [] := by
      intro hnil
      rw [hnil] at hlast
      exact Option.noConfusion hlast
    have h1 : 1 ≤ q.length := by
      cases q with
      | nil => exact absurd rfl hq
      | cons x xs => simp
    rw [List.length_append, List.length_dropLast]
    simp
    omega
  · intro n i thr first rest hi hc hb
    obtain ⟨p0, d0⟩ := first
    have hidx : (IoBuf.new thr i).index = i := rfl
    have hlen : i < (freshPackets n).to_write.length := by
      show i < (List.replicate n ([] : List PacketWriteInfo)).length
      rw [List.length_replicate]
      exact hi
    have h1 := append_raw_seq_getD (IoBuf.new thr i) ((p0, d0) :: rest)
        (freshPackets n) hlen
    rw [hidx] at h1
    have h2 : (freshPackets n).to_write.getD i ([] : List PacketWriteInfo)
        = [] := replicate_getD_nil n i
    rw [h1, h2]
    have hsum : sumLens ((p0, d0) :: rest) = d0.length + sumLens rest := by
      simp [sumLens]
    rw [hsum] at hb
    simp only [contiguousFrom, Bool.and_eq_true, beq_iff_eq] at hc
    obtain ⟨-, hc2⟩ := hc
    have hdl : d0.length % U32MOD = d0.length := Nat.mod_eq_of_lt (by omega)
    calc pushRawSeq [] ((p0, d0) :: rest)
        = pushRawSeq [{ start_ptr := p0, len := d0.length % U32MOD }] rest := rfl
      _ = pushRawSeq [{ start_ptr := p0, len := d0.length }] rest := by rw [hdl]
      _ = [{ start_ptr := p0, len := d0.length + sumLens rest }] := by
            refine pushRawSeq_singleton rest p0 d0.length ?_ (by omega)
            simpa using hc2
      _ = [{ start_ptr := p0, len := sumLens ((p0, d0) :: rest) }] := by
            rw [hsum]

/-- C3 witness: three contiguous raw appends of lengths 4, 6 and 4 on a
fresh two-shard pair leave shard 0 with the single entry of length 14. -/
theorem c3_witness :
    (append_raw_seq (freshPackets 2) (IoBuf.new 256 0)
        [(100, [7, 7, 7, 7]), (104, [7, 7, 7, 7, 7, 7]),
         (110, [7, 7, 7, 7])]).to_write.getD 0 []
      = [{ start_ptr := 100, len := 14 }] :=
  c3_coalescing.2.2 2 0 256 (100, [7, 7, 7, 7])
    [(104, [7, 7, 7, 7, 7, 7]), (110, [7, 7, 7, 7])]
    (by decide) (by decide) (by decide)

/-- C4: `can_send` is true exactly when no send is in flight and some shard
queue is non-empty; it is a pure function of the state. -/
theorem c4_can_send_iff (p : Packets) :
    Packets.can_send p = true ↔
      (p.number_sending = 0 ∧ ∃ q ∈ p.to_write, q ≠ []) := by
  unfold Packets.can_send
  by_cases h : p.number_sending = 0
  · simp [h, List.any_eq_true, List.isEmpty_iff]
  · simp [h]

/-- C5: with the counter at zero, `prepare_for_send` returns the total
pending entry count across all shards, stores it into the counter, and
leaves the shard queues unchanged. -/
theorem c5_prepare_for_send (p : Packets) (h : p.number_sending = 0) :
    Packets.prepare_for_send p
      = .ok ((p.to_write.map List.length).sum,
             { p with number_sending := (p.to_write.map List.length).sum }) := by
  unfold Packets.prepare_for_send
  rw [if_pos h]

/-- C5 witness: shard queues of sizes 2 and 3 give total 5. -/
theorem c5_witness :
    Packets.prepare_for_send
        { to_write :=
            [[{ start_ptr := 0, len := 1 }, { start_ptr := 1, len := 1 }],
             [{ start_ptr := 2, len := 1 }, { start_ptr := 3, len := 1 },
              { start_ptr := 4, len := 1 }]]
          number_sending := 0 }
      = .ok (5,
          { to_write :=
              [[{ start_ptr := 0, len := 1 }, { start_ptr := 1, len := 1 }],
               [{ start_ptr := 2, len := 1 }, { start_ptr := 3, len := 1 },
                { start_ptr := 4, len := 1 }]]
            number_sending := 5 }) :=
  c5_prepare_for_send _ rfl

/-- A drain whose positive decrements sum to at most the (in-range) counter
succeeds and subtracts the sum exactly. -/
theorem drainSent_exact (ds : List Nat) :
    ∀ q : Packets, (∀ d ∈ ds, 0 < d) → ds.sum ≤ q.number_sending →
      q.number_sending < USIZE →
      drainSent q ds
        = .ok { q with number_sending := q.number_sending - ds.sum } := by
  induction ds with
  | nil =>
    intro q _ _ _
    show Except.ok q
      = Except.ok { q with number_sending := q.number_sending - List.sum [] }
    simp
  | cons d ds ih =>
    intro q hpos hsum hlt
    have hd : 0 < d := hpos d (List.mem_cons_self d ds)
    have hsum2 : d + ds.sum ≤ q.number_sending := by
      rw [← List.sum_cons]
      exact hsum
    have hdq : d ≤ q.number_sending := by omega
    have hstep : Packets.set_successfully_sent q d
        = .ok { q with number_sending := q.number_sending - d } := by
      unfold Packets.set_successfully_sent
      rw [if_pos (by omega), wrapSub_eq_sub q.number_sending d hlt hdq]
    have hrest := ih { q with number_sending := q.number_sending - d }
        (fun x hx => hpos x (List.mem_cons_of_mem d hx))
        (by show ds.sum ≤ q.number_sending - d; omega)
        (by show q.number_sending - d < USIZE; omega)
    have hfold : q.number_sending - d - ds.sum
        = q.number_sending - (d :: ds).sum := by
      rw [List.sum_cons]
      omega
    calc drainSent q (d :: ds)
        = Packets.set_successfully_sent q d >>= fun q2 => drainSent q2 ds := rfl
      _ = drainSent { q with number_sending := q.number_sending - d } ds := by
          rw [hstep]
          rfl
      _ = .ok { q with number_sending := q.number_sending - d - ds.sum } :=
          hrest
      _ = .ok { q with number_sending := q.number_sending - (d :: ds).sum } := by
          rw [hfold]

/-- Queues whose lengths sum to zero are all empty, so no queue passes the
non-emptiness test. -/
theorem any_nonEmpty_eq_false_of_sum_len_zero
    (l : List (List PacketWriteInfo))
    (h : (l.map List.length).sum = 0) :
    (l.any fun q => !q.isEmpty) = false := by
  induction l with
  | nil => rfl
  | cons q l ih =>
    rw [List.map_cons, List.sum_cons] at h
    have h1 : q.length = 0 := by omega
    have h2 : (l.map List.length).sum = 0 := by omega
    rw [List.any_cons, ih h2, List.length_eq_zero.mp h1]
    rfl

/-- C6: with the counter at zero, `prepare_for_send` succeeds and `can_send`
is false immediately afterwards; a run of positive `set_successfully_sent`
decrements summing to the prepared count succeeds, brings the counter back
to zero, and then `can_send` is true exactly when some shard queue is
non-empty. -/
theorem c6_send_cycle (p : Packets) (ds : List Nat)
    (h0 : p.number_sending = 0)
    (hpos : ∀ d ∈ ds, 0 < d)
    (hsum : ds.sum = (p.to_write.map List.length).sum)
    (hlt : (p.to_write.map List.length).sum < USIZE) :
    ∃ p1, Packets.prepare_for_send p
        = .ok ((p.to_write.map List.length).sum, p1)
      ∧ Packets.can_send p1 = false
      ∧ ∃ p2, drainSent p1 ds = .ok p2
        ∧ p2.number_sending = 0
        ∧ Packets.can_send p2 = (p.to_write.any fun q => !q.isEmpty) := by
  have hprep : Packets.prepare_for_send p
      = .ok ((p.to_write.map List.length).sum,
          { p with number_sending := (p.to_write.map List.length).sum }) := by
    unfold Packets.prepare_for_send
    rw [if_pos h0]
  refine ⟨{ p with number_sending := (p.to_write.map List.length).sum },
    hprep, ?_, { p with number_sending := (p.to_write.map List.length).sum
        - ds.sum }, ?_, ?_, ?_⟩
  · show (if ((p.to_write.map List.length).sum ≠ 0) then false
      else p.to_write.any fun x => !x.isEmpty) = false
    by_cases ht : (p.to_write.map List.length).sum = 0
    · rw [if_neg (by omega)]
      exact any_nonEmpty_eq_false_of_sum_len_zero p.to_write ht
    · rw [if_pos ht]
  · refine drainSent_exact ds _ hpos ?_ ?_
    · show ds.sum ≤ (p.to_write.map List.length).sum
      omega
    · show (p.to_write.map List.length).sum < USIZE
      exact hlt
  · show (p.to_write.map List.length).sum - ds.sum = 0
    omega
  · show (if (((p.to_write.map List.length).sum - ds.sum) ≠ 0) then false
      else p.to_write.any fun x => !x.isEmpty)
        = (p.to_write.any fun q => !q.isEmpty)
    rw [if_neg (by omega)]

/-- C6 witness: shard queues of sizes 2 and 3 prepare to 5; draining with
decrements 2 and 3 returns the counter to zero and `can_send` follows the
queues again. -/
theorem c6_witness :
    ∃ p1,
      Packets.prepare_for_send
          { to_write :=
              [[{ start_ptr := 0, len := 1 }, { start_ptr := 1, len := 1 }],
               [{ start_ptr := 2, len := 1 }, { start_ptr := 3, len := 1 },
                { start_ptr := 4, len := 1 }]]
            number_sending := 0 }
        = .ok (5, p1)
      ∧ Packets.can_send p1 = false
      ∧ ∃ p2, drainSent p1 [2, 3] = .ok p2
        ∧ p2.number_sending = 0
        ∧ Packets.can_send p2
            = (([[{ start_ptr := 0, len := 1 }, { start_ptr := 1, len := 1 }],
                 [{ start_ptr := 2, len := 1 }, { start_ptr := 3, len := 1 },
                  { start_ptr := 4, len := 1 }]] :
                  List (List PacketWriteInfo)).any fun q => !q.isEmpty) :=
  c6_send_cycle
    { to_write :=
        [[{ start_ptr := 0, len := 1 }, { start_ptr := 1, len := 1 }],
         [{ start_ptr := 2, len := 1 }, { start_ptr := 3, len := 1 },
          { start_ptr := 4, len := 1 }]]
      number_sending := 0 }
    [2, 3] rfl (by decide) (by decide) (by decide)

/-- Shard-for-shard read-back of the queue merge, when both sides carry the
same shard count. -/
theorem extendQueues_getD (qs : List (List PacketWriteInfo)) :
    ∀ os : List (List PacketWriteInfo), qs.length = os.length →
      ∀ i : Nat, (extendQueues qs os).getD i []
        = qs.getD i [] ++ os.getD i [] := by
  induction qs with
  | nil =>
    intro os h i
    cases os with
    | nil => cases i <;> rfl
    | cons o os => simp at h
  | cons q qs ih =>
    intro os h i
    cases os with
    | nil => simp at h
    | cons o os =>
      cases i with
      | zero => rfl
      | succ j => exact ih os (by simpa using h) j

/-- C8: `extend` appends, per shard index, the other instance's entries
after this instance's own, keeping both relative orders; the counter is
untouched, and the embedding takes `other` by value (the source borrows it
immutably), so `other` is unmodified. -/
theorem c8_extend_shardwise (p other : Packets)
    (h : p.to_write.length = other.to_write.length) (i : Nat) :
    (Packets.extend p other).to_write.getD i []
        = p.to_write.getD i [] ++ other.to_write.getD i []
      ∧ (Packets.extend p other).number_sending = p.number_sending :=
  ⟨extendQueues_getD p.to_write other.to_write h i, rfl⟩

/-- C8 witness: two two-shard instances merged, read back at shard 0. -/
theorem c8_witness :
    (Packets.extend
        { to_write := [[{ start_ptr := 0, len := 4 }], []]
          number_sending := 0 }
        { to_write := [[{ start_ptr := 4, len := 6 }],
            [{ start_ptr := 50, len := 1 }]]
          number_sending := 9 }).to_write.getD 0 []
      = [{ start_ptr := 0, len := 4 }] ++ [{ start_ptr := 4, len := 6 }]
    ∧ (Packets.extend
        { to_write := [[{ start_ptr := 0, len := 4 }], []]
          number_sending := 0 }
        { to_write := [[{ start_ptr := 4, len := 6 }],
            [{ start_ptr := 50, len := 1 }]]
          number_sending := 9 }).number_sending = 0 :=
  c8_extend_shardwise
    { to_write := [[{ start_ptr := 0, len := 4 }], []], number_sending := 0 }
    { to_write := [[{ start_ptr := 4, len := 6 }],
        [{ start_ptr := 50, len := 1 }]], number_sending := 9 }
    rfl 0

/-- C7: when the encoder fails, `append` propagates the error and the
`Packets` state is exactly the pre-call state: no queue entry is recorded
and the in-flight counter is untouched. -/
theorem c7_append_error_propagates (p : Packets) (buf : IoBuf) (e : String) :
    (Packets.append p buf (.error e)).2 = .error e
      ∧ (Packets.append p buf (.error e)).1 = p
      ∧ (Packets.append p buf (.error e)).1.to_write = p.to_write
      ∧ (Packets.append p buf (.error e)).1.number_sending = p.number_sending :=
  ⟨rfl, rfl, rfl, rfl⟩

/-- C9: every operation of the unsupported-platform stub panics with the
"not implemented" message and never constructs a normal return value. -/
theorem c9_stub_always_panics :
    (∀ address : String, NotImplemented.new address = .panics notImplementedMsg)
      ∧ (∀ (s : NotImplemented) (f : ServerEvent → Unit),
          s.drain f = .panics notImplementedMsg)
      ∧ (∀ (s : NotImplemented) (buffers : List Iovec),
          s.allocate_buffers buffers = .panics notImplementedMsg)
      ∧ (∀ (G : Type) (s : NotImplemented) (g : G)
          (writers : List RefreshItems),
          NotImplemented.write_all s g writers = .panics notImplementedMsg)
      ∧ (∀ s : NotImplemented, s.submit_events = .panics notImplementedMsg)
      ∧ (∀ (address : String) (v : NotImplemented),
          NotImplemented.new address ≠ PanicOr.returns v) := by
  refine ⟨fun _ => rfl, fun _ _ => rfl, fun _ _ => rfl, fun _ _ _ _ => rfl,
    fun _ => rfl, fun _ v h => ?_⟩
  exact PanicOr.noConfusion h

/-- C10: `clear` empties every shard queue, leaves the in-flight counter
unchanged, and while the counter is non-zero `can_send` stays false. -/
theorem c10_clear_preserves_counter (p : Packets) :
    (∀ q ∈ (Packets.clear p).to_write, q = ([] : List PacketWriteInfo))
      ∧ (Packets.clear p).number_sending = p.number_sending
      ∧ (p.number_sending ≠ 0 → Packets.can_send (Packets.clear p) = false) := by
  refine ⟨?_, rfl, ?_⟩
  · intro q hq
    rw [show (Packets.clear p).to_write = p.to_write.map (fun _ => []) from rfl] at hq
    obtain ⟨a, -, h2⟩ := List.mem_map.mp hq
    exact h2.symm
  · intro h
    show (if p.number_sending ≠ 0 then false
      else (Packets.clear p).to_write.any fun x => !x.isEmpty) = false
    rw [if_pos h]

end Net
